import Mathlib

/-!
Verification development for `tree_bench/to_csv.py`, a line-oriented
log-to-CSV converter.  The script reads lines from standard input; a line
read while no record is pending is normalized by the two regular-expression
rewrites `re.sub("(\w+):", ...)` and `str.replace` and decoded with
`json.loads`; a line read while a record is pending must match the regular
expression `thrpt:\s+\[([\d.]+) Kelem`, whose captured group is converted
with `float` and stored under the key `k_updates_per_sec` before the record
is written by `csv.DictWriter.writerow`.  A header row is written once,
before the loop.

Modelling conventions:
- input is the list of lines (without trailing newline characters, which do
  not affect any of the operations involved);
- the output is the list of written CSV rows (each without its `\r\n`
  terminator, a fixed constant of the csv dialect);
- every uncaught Python exception is a fatal, non-zero-exit termination and
  is modelled by a value of type `Err`: `formatError` is the
  `json.JSONDecodeError` of the config parse, `parseError` is the fatal
  raise on a throughput line that does not match the pattern, `floatError`
  is a `ValueError` from `float`, `assignError` is the `TypeError` from item
  assignment on a non-dict decode result, and `extraField` is the
  `ValueError` raised by `csv.DictWriter` for keys outside the field list;
- the character classes `\w`, `\s`, `\d` of the regexes are modelled on
  their ASCII ranges, and `json.loads` is modelled on the JSON grammar of
  objects, arrays, strings (with the single-character escapes; `\uXXXX`
  escapes and the nonstandard constants Infinity and NaN are outside the
  modelled subset, which no claim exercises);
- Python floats are modelled as exact scaled decimals; the rendering
  `str(f)` is modelled as the shortest decimal form, which agrees with
  Python on the decimal magnitudes that occur here.
-/

set_option maxRecDepth 100000

namespace ToCsv

/-! ## Characters -/

/-- The double-quote character. -/
def quoteChar : Char := Char.ofNat 34

/-- The apostrophe (single-quote) character. -/
def apostChar : Char := Char.ofNat 39

/-- The backslash character. -/
def backslashChar : Char := Char.ofNat 92

/-- The opening-brace character. -/
def lbraceChar : Char := Char.ofNat 123

/-- The closing-brace character. -/
def rbraceChar : Char := Char.ofNat 125

/-- Characters matched by `\w` in the Python regex (ASCII range):
letters, digits and the underscore. -/
def isWordChar (c : Char) : Bool :=
  (48 ≤ c.toNat && c.toNat ≤ 57) || (65 ≤ c.toNat && c.toNat ≤ 90) ||
    (97 ≤ c.toNat && c.toNat ≤ 122) || c.toNat = 95

/-- Characters matched by `\s` (ASCII range). -/
def isSpaceChar (c : Char) : Bool :=
  c.toNat = 32 || c.toNat = 9 || c.toNat = 10 || c.toNat = 13 ||
    c.toNat = 11 || c.toNat = 12

/-- Characters matched by `\d` (ASCII range). -/
def isDigitChar (c : Char) : Bool :=
  48 ≤ c.toNat && c.toNat ≤ 57

/-- Characters matched by the class `[\d.]` of the throughput regex. -/
def isDigitDot (c : Char) : Bool :=
  isDigitChar c || c.toNat = 46

/-- Whitespace accepted between tokens by `json.loads`. -/
def isJsonWs (c : Char) : Bool :=
  c.toNat = 32 || c.toNat = 9 || c.toNat = 10 || c.toNat = 13

/-- Numeric value of a digit character. -/
def digitVal (c : Char) : Nat := c.toNat - 48

/-- Value of a list of digit characters read in base 10. -/
def digitsToNat (ds : List Char) : Nat :=
  ds.foldl (fun a c => 10 * a + digitVal c) 0

/-- Helper for writing concrete input lines: the literal apostrophes of the
log format are written as `*` in the Lean string literal and mapped to the
apostrophe character here. -/
def withApost (s : String) : List Char :=
  s.data.map fun c => if c = '*' then apostChar else c

/-! ## The config-line rewrite `re.sub("(\w+):", ...)` -/

/-- Splits a maximal leading run of `\w` characters from a string, as the
greedy `\w+` does. -/
def takeWord : List Char → List Char × List Char
  | [] => ([], [])
  | c :: cs =>
    if isWordChar c then
      let p := takeWord cs
      (c :: p.1, p.2)
    else ([], c :: cs)

theorem takeWord_rest_length (cs : List Char) : (takeWord cs).2.length ≤ cs.length := by
  induction cs with
  | nil => simp [takeWord]
  | cons c cs ih =>
    simp only [takeWord]
    split
    · simpa using Nat.le_succ_of_le ih
    · simp

theorem takeWord_append (cs : List Char) : (takeWord cs).1 ++ (takeWord cs).2 = cs := by
  induction cs with
  | nil => simp [takeWord]
  | cons c cs ih =>
    simp only [takeWord]
    split
    · simpa using ih
    · simp

/-- Fuel-bounded worker for `subKeys`; the fuel is an upper bound on the
input length, so the exhaustion branch is unreachable from `subKeys`. -/
def subKeysAux : Nat → List Char → List Char
  | _, [] => []
  | 0, s => s
  | fuel + 1, c :: cs =>
    if isWordChar c then
      match takeWord cs with
      | (w, ':' :: r2) => quoteChar :: c :: (w ++ quoteChar :: ':' :: subKeysAux fuel r2)
      | _ => c :: subKeysAux fuel cs
    else c :: subKeysAux fuel cs

/-- Model of `re.sub` with the pattern `(\w+):` and a replacement quoting
the group: scanning left to right, every maximal run of word characters
that is immediately followed by a colon is wrapped in double quotes
(keeping the colon), and scanning resumes after the colon.  Scanning
position by position is exactly the leftmost search of `re.sub`, since a
shortened word run is followed by the same non-colon character as the
maximal one. -/
def subKeys (s : List Char) : List Char := subKeysAux s.length s

/-- Model of `line.replace(single-quote, double-quote)`. -/
def replaceQuotes (s : List Char) : List Char :=
  s.map fun c => if c = apostChar then quoteChar else c

/-- The full normalization applied to a config line before `json.loads`. -/
def normalizeConfig (line : List Char) : List Char :=
  replaceQuotes (subKeys line)

/-! ## JSON values and the model of `json.loads` -/

/-- Decoded JSON values as Python builds them: `jint` for numbers without
fraction or exponent, `jfloat m e` (meaning `m * 10 ^ e`) for the others,
objects as insertion-ordered key-value lists like Python dicts. -/
inductive JValue where
  | jnull : JValue
  | jbool : Bool → JValue
  | jint : Int → JValue
  | jfloat : Int → Int → JValue
  | jstr : List Char → JValue
  | jarr : List JValue → JValue
  | jobj : List (List Char × JValue) → JValue

instance : Inhabited JValue := ⟨JValue.jnull⟩

/-- A decoded object: the Python dict underlying a pending record. -/
abbrev Obj := List (List Char × JValue)

/-- Dict lookup. -/
def lookupKey (k : List Char) : Obj → Option JValue
  | [] => none
  | (k2, v) :: rest => if k2 = k then some v else lookupKey k rest

/-- Dict item assignment: an existing key keeps its position and gets the
new value, a new key is appended at the end, as in Python dicts. -/
def insertKey (k : List Char) (v : JValue) : Obj → Obj
  | [] => [(k, v)]
  | (k2, v2) :: rest =>
    if k2 = k then (k2, v) :: rest else (k2, v2) :: insertKey k v rest

/-- The keys of an object, in order. -/
def objKeys (o : Obj) : List (List Char) := o.map Prod.fst

/-- Skips JSON inter-token whitespace. -/
def skipWs (s : List Char) : List Char := s.dropWhile isJsonWs

/-- Decodes a single-character string escape. -/
def escChar (c : Char) : Option Char :=
  if c = quoteChar then some quoteChar
  else if c = backslashChar then some backslashChar
  else if c = '/' then some '/'
  else if c = 'b' then some (Char.ofNat 8)
  else if c = 'f' then some (Char.ofNat 12)
  else if c = 'n' then some (Char.ofNat 10)
  else if c = 'r' then some (Char.ofNat 13)
  else if c = 't' then some (Char.ofNat 9)
  else none

/-- Parses the body of a JSON string literal, after the opening quote;
returns the contents and the remainder after the closing quote.  Raw
control characters are rejected, as by the strict decoder. -/
def parseStringBody : List Char → Option (List Char × List Char)
  | [] => none
  | c :: cs =>
    if c = quoteChar then some ([], cs)
    else if c = backslashChar then
      match cs with
      | [] => none
      | e :: cs2 =>
        match escChar e with
        | some d => (parseStringBody cs2).map fun p => (d :: p.1, p.2)
        | none => none
    else if c.toNat < 32 then none
    else (parseStringBody cs).map fun p => (c :: p.1, p.2)

/-- Builds the signed integer result of a number literal. -/
def mkSigned (neg : Bool) (m : Nat) : Int :=
  if neg then -(m : Int) else (m : Int)

/-- Parses the optional exponent part of a JSON number and finishes the
number, producing `jint` only when neither fraction nor exponent was
present, as `json.loads` produces Python int exactly then. -/
def parseMaybeExp (neg : Bool) (m : Nat) (e : Int) (isFloat : Bool)
    (rest : List Char) : Option (JValue × List Char) :=
  match rest with
  | c :: cs =>
    if c = 'e' ∨ c = 'E' then
      let p : Int × List Char :=
        match cs with
        | c2 :: cs3 =>
          if c2 = '+' then (1, cs3)
          else if c2 = '-' then (-1, cs3) else (1, cs)
        | [] => (1, cs)
      let eds := p.2.takeWhile isDigitChar
      if eds = [] then none
      else
        some (.jfloat (mkSigned neg m) (e + p.1 * (digitsToNat eds : Int)),
          p.2.dropWhile isDigitChar)
    else if isFloat then some (.jfloat (mkSigned neg m) e, rest)
    else some (.jint (mkSigned neg m), rest)
  | [] =>
    if isFloat then some (.jfloat (mkSigned neg m) e, rest)
    else some (.jint (mkSigned neg m), rest)

/-- Parses a JSON number literal: optional minus, an integer part that is
`0` or starts with a nonzero digit, an optional fraction, an optional
exponent. -/
def parseNumber (s : List Char) : Option (JValue × List Char) :=
  let p : Bool × List Char :=
    match s with
    | c :: cs => if c = '-' then (true, cs) else (false, s)
    | [] => (false, s)
  match p.2 with
  | c :: cs =>
    if isDigitChar c then
      let q : List Char × List Char :=
        if c = '0' then ([c], cs)
        else ((c :: cs).takeWhile isDigitChar, (c :: cs).dropWhile isDigitChar)
      match q.2 with
      | '.' :: r2 =>
        let fds := r2.takeWhile isDigitChar
        if fds = [] then none
        else
          parseMaybeExp p.1
            (digitsToNat q.1 * 10 ^ fds.length + digitsToNat fds)
            (-(fds.length : Int)) true (r2.dropWhile isDigitChar)
      | r1 => parseMaybeExp p.1 (digitsToNat q.1) 0 false r1
    else none
  | [] => none

mutual

/-- Parses one JSON value, fuel-bounded.  The top level calls it with fuel
larger than the input length, which suffices since every recursive call
consumes at least one character first. -/
def parseValue : Nat → List Char → Option (JValue × List Char)
  | 0, _ => none
  | fuel + 1, s =>
    match skipWs s with
    | [] => none
    | c :: cs =>
      if c = lbraceChar then
        match skipWs cs with
        | c2 :: cs2 =>
          if c2 = rbraceChar then some (.jobj [], cs2)
          else (parseMembers fuel [] (c2 :: cs2)).map fun p => (.jobj p.1, p.2)
        | [] => none
      else if c = '[' then
        match skipWs cs with
        | c2 :: cs2 =>
          if c2 = ']' then some (.jarr [], cs2)
          else parseElems fuel [] (c2 :: cs2)
        | [] => none
      else if c = quoteChar then
        (parseStringBody cs).map fun p => (.jstr p.1, p.2)
      else if c = 't' then
        match cs with
        | 'r' :: 'u' :: 'e' :: r => some (.jbool true, r)
        | _ => none
      else if c = 'f' then
        match cs with
        | 'a' :: 'l' :: 's' :: 'e' :: r => some (.jbool false, r)
        | _ => none
      else if c = 'n' then
        match cs with
        | 'u' :: 'l' :: 'l' :: r => some (.jnull, r)
        | _ => none
      else parseNumber (c :: cs)

/-- Parses the members of an object after the opening brace, positioned at
a key string; keys accumulate with dict insertion semantics. -/
def parseMembers : Nat → Obj → List Char → Option (Obj × List Char)
  | 0, _, _ => none
  | fuel + 1, acc, s =>
    match s with
    | [] => none
    | c :: cs =>
      if c = quoteChar then
        match parseStringBody cs with
        | some (k, r1) =>
          match skipWs r1 with
          | c2 :: r2 =>
            if c2 = ':' then
              match parseValue fuel r2 with
              | some (v, r3) =>
                match skipWs r3 with
                | c4 :: r4 =>
                  if c4 = ',' then parseMembers fuel (insertKey k v acc) (skipWs r4)
                  else if c4 = rbraceChar then some (insertKey k v acc, r4)
                  else none
                | [] => none
              | none => none
            else none
          | [] => none
        | none => none
      else none

/-- Parses the elements of an array after the opening bracket, positioned
at a value. -/
def parseElems : Nat → List JValue → List Char → Option (JValue × List Char)
  | 0, _, _ => none
  | fuel + 1, acc, s =>
    match parseValue fuel s with
    | some (v, r1) =>
      match skipWs r1 with
      | c2 :: r2 =>
        if c2 = ',' then parseElems fuel (acc ++ [v]) (skipWs r2)
        else if c2 = ']' then some (.jarr (acc ++ [v]), r2)
        else none
      | [] => none
    | none => none

end

/-- Model of `json.loads`: one JSON value, then only whitespace. -/
def pyJsonLoads (s : List Char) : Option JValue :=
  match parseValue (s.length + 1) s with
  | some (v, rest) => if skipWs rest = [] then some v else none
  | none => none

/-! ## The throughput regex `thrpt:\s+\[([\d.]+) Kelem` -/

/-- Attempts the part of the pattern after the literal `thrpt:`.  The
greedy `\s+` and `[\d.]+` runs are maximal munches; this is exact because
the character following each run in the pattern (`[` and the space) is not
a member of the preceding class, so regex backtracking can never succeed
where the maximal munch fails. -/
def matchAfterColon (rest : List Char) : Option (List Char) :=
  if rest.takeWhile isSpaceChar = [] then none
  else
    match rest.dropWhile isSpaceChar with
    | '[' :: r2 =>
      let tok := r2.takeWhile isDigitDot
      if tok = [] then none
      else
        match r2.dropWhile isDigitDot with
        | ' ' :: 'K' :: 'e' :: 'l' :: 'e' :: 'm' :: _ => some tok
        | _ => none
    | _ => none

/-- Attempts the whole pattern at the head of the string. -/
def matchThrptAt (s : List Char) : Option (List Char) :=
  match s with
  | 't' :: 'h' :: 'r' :: 'p' :: 't' :: ':' :: rest => matchAfterColon rest
  | _ => none

/-- Model of `re.search`: the pattern is attempted at every position, left
to right, and the first success wins. -/
def searchThrpt : List Char → Option (List Char)
  | [] => none
  | c :: cs =>
    match matchThrptAt (c :: cs) with
    | some tok => some tok
    | none => searchThrpt cs

/-- Model of Python `float` on the token language of the regex group
(nonempty strings of digits and periods): the conversion succeeds exactly
when the token has at most one period and at least one digit, and the value
is the denoted decimal, as a scaled-decimal pair. -/
def pythonFloat (tok : List Char) : Option (Int × Int) :=
  if tok ≠ [] ∧ (∀ c ∈ tok, isDigitDot c) ∧ tok.count '.' ≤ 1 ∧
      (∃ c ∈ tok, isDigitChar c) then
    let ip := tok.takeWhile isDigitChar
    let rest := tok.dropWhile isDigitChar
    let fp := rest.drop 1
    some ((digitsToNat (ip ++ fp) : Int), -(fp.length : Int))
  else none

/-! ## Rendering values as `str` does, and the CSV writer -/

/-- The character of a decimal digit. -/
def digitChar (d : Nat) : Char :=
  if d = 0 then '0' else if d = 1 then '1' else if d = 2 then '2'
  else if d = 3 then '3' else if d = 4 then '4' else if d = 5 then '5'
  else if d = 6 then '6' else if d = 7 then '7' else if d = 8 then '8'
  else '9'

/-- Fuel-bounded worker for `natDigits`; any fuel above the number of
digits gives the digits of the number, most significant first. -/
def natDigitsAux : Nat → Nat → List Char
  | 0, _ => []
  | fuel + 1, n =>
    if n < 10 then [digitChar n]
    else natDigitsAux fuel (n / 10) ++ [digitChar (n % 10)]

/-- Decimal digits of a natural number, most significant first. -/
def natDigits (n : Nat) : List Char := natDigitsAux (n + 1) n

/-- Rendering of a Python int by `str`. -/
def intDigits (i : Int) : List Char :=
  if i < 0 then '-' :: natDigits i.natAbs else natDigits i.natAbs

/-- Removes factors of ten from the mantissa into the exponent, fuel-bounded
by the absolute mantissa. -/
def stripZeros : Nat → Int → Int → Int × Int
  | 0, m, e => (m, e)
  | f + 1, m, e =>
    if m % 10 = 0 then stripZeros f (m / 10) (e + 1) else (m, e)

/-- Pads a digit run on the left with zeros until it is longer than `k`,
so that a decimal point can be placed `k` digits from the right. -/
def padDigits (ds : List Char) (k : Nat) : List Char :=
  if k < ds.length then ds else List.replicate (k + 1 - ds.length) '0' ++ ds

/-- Renders a sign and a digit run with a decimal point `k` digits from
the right. -/
def renderFrac (sgn ds : List Char) (k : Nat) : List Char :=
  sgn ++ (padDigits ds k).take ((padDigits ds k).length - k) ++
    '.' :: (padDigits ds k).drop ((padDigits ds k).length - k)

/-- Rendering of a Python float by `str`: the shortest decimal form, with at
least one fractional digit.  This agrees with the repr of CPython on the
decimal magnitudes occurring here (no exponent notation is ever produced by
the modelled runs). -/
def renderFloat (m e : Int) : List Char :=
  if m = 0 then '0' :: '.' :: ['0']
  else
    let p := stripZeros m.natAbs m e
    let sgn : List Char := if p.1 < 0 then ['-'] else []
    if 0 ≤ p.2 then
      sgn ++ natDigits (p.1.natAbs * 10 ^ p.2.toNat) ++ '.' :: ['0']
    else
      renderFrac sgn (natDigits p.1.natAbs) (-p.2).toNat

mutual

/-- Model of Python `repr` on decoded JSON values, used by `str` on
containers; string escaping inside repr is not modelled (no claim renders a
nested container). -/
def pyRepr : JValue → List Char
  | .jnull => 'N' :: 'o' :: 'n' :: ['e']
  | .jbool b => if b then 'T' :: 'r' :: 'u' :: ['e'] else 'F' :: 'a' :: 'l' :: 's' :: ['e']
  | .jint i => intDigits i
  | .jfloat m e => renderFloat m e
  | .jstr s => apostChar :: s ++ [apostChar]
  | .jarr vs => '[' :: pyReprElems vs ++ [']']
  | .jobj kvs => lbraceChar :: pyReprMembers kvs ++ [rbraceChar]

/-- Comma-separated repr of array elements. -/
def pyReprElems : List JValue → List Char
  | [] => []
  | [v] => pyRepr v
  | v :: vs => pyRepr v ++ ',' :: ' ' :: pyReprElems vs

/-- Comma-separated repr of dict members. -/
def pyReprMembers : List (List Char × JValue) → List Char
  | [] => []
  | [(k, v)] => apostChar :: k ++ apostChar :: ':' :: ' ' :: pyRepr v
  | (k, v) :: kvs =>
    (apostChar :: k ++ apostChar :: ':' :: ' ' :: pyRepr v) ++
      ',' :: ' ' :: pyReprMembers kvs

end

/-- Conversion of one field value to its CSV cell text, as the csv writer
does: `None` becomes the empty string, everything else is `str`. -/
def cellStr : JValue → List Char
  | .jnull => []
  | .jbool b => if b then 'T' :: 'r' :: 'u' :: ['e'] else 'F' :: 'a' :: 'l' :: 's' :: ['e']
  | .jint i => intDigits i
  | .jfloat m e => renderFloat m e
  | .jstr s => s
  | .jarr vs => pyRepr (.jarr vs)
  | .jobj kvs => pyRepr (.jobj kvs)

/-- Characters that force quoting under QUOTE_MINIMAL with the default
dialect: the delimiter, the quote character, and the line-terminator
characters. -/
def isCsvSpecial (c : Char) : Bool :=
  c = ',' || c = quoteChar || c.toNat = 13 || c.toNat = 10

/-- Doubles every embedded quote character. -/
def escapeQuotes : List Char → List Char
  | [] => []
  | c :: cs =>
    if c = quoteChar then quoteChar :: quoteChar :: escapeQuotes cs
    else c :: escapeQuotes cs

/-- Minimal CSV quoting of one cell. -/
def csvQuote (s : List Char) : List Char :=
  if s.any isCsvSpecial then quoteChar :: escapeQuotes s ++ [quoteChar] else s

/-- The fixed field list of the script. -/
def FIELD_NAMES : List (List Char) :=
  ["name".data, "set_size_m".data, "batch_size_k".data, "arity".data,
    "total_memory_m".data, "num_hashing_per_batch".data,
    "disk_bytes_per_update".data, "k_updates_per_sec".data]

/-- The key added by the throughput extractor. -/
def kUpdKey : List Char := "k_updates_per_sec".data

/-- The cell written for one field name: the looked-up value, or the empty
restval for a missing key. -/
def cellOf (rec : Obj) (f : List Char) : List Char :=
  match lookupKey f rec with
  | some v => csvQuote (cellStr v)
  | none => []

/-- Joins cells with the comma delimiter. -/
def joinComma : List (List Char) → List Char
  | [] => []
  | [x] => x
  | x :: xs => x ++ ',' :: joinComma xs

/-- Fatal outcomes of a run; each models one uncaught Python exception, see
the header comment. -/
inductive Err where
  | formatError : Err
  | parseError : Err
  | floatError : Err
  | assignError : Err
  | extraField : Err
deriving DecidableEq

/-- True when the record has a key outside the field list, in which case
`DictWriter.writerow` raises. -/
def hasExtraKey (rec : Obj) : Bool :=
  rec.any fun kv => !(FIELD_NAMES.contains kv.1)

/-- Model of `DictWriter.writerow`: raises on extra keys, otherwise writes
the cells in field order, missing keys as the empty restval. -/
def writerow (rec : Obj) : Except Err (List Char) :=
  if hasExtraKey rec then .error .extraField
  else .ok (joinComma (FIELD_NAMES.map (cellOf rec)))

/-- The header row written by `writeheader` (the field names contain no
characters needing quotes). -/
def headerRow : List Char := joinComma FIELD_NAMES

/-! ## The driver loop -/

/-- Model of `record[k_updates_per_sec] = f`: item assignment succeeds only
on a dict; on any other decoded value Python raises a TypeError. -/
def setThroughput (v : JValue) (d : Int × Int) : Option Obj :=
  match v with
  | .jobj kvs => some (insertKey kUpdKey (.jfloat d.1 d.2) kvs)
  | _ => none

/-- One iteration of the loop body in the awaiting-config state: decode the
line and produce the next pending state.  A line decoding to `null` leaves
the pending variable `None`, so the scanner stays in the awaiting-config
state, exactly as the Python `is None` test behaves. -/
def stepConfig (line : List Char) : Except Err (Option JValue) :=
  match pyJsonLoads (normalizeConfig line) with
  | none => .error .formatError
  | some .jnull => .ok none
  | some v => .ok (some v)

/-- One iteration of the loop body in the awaiting-throughput state:
extract the value, convert it, store it into the record, write the row. -/
def stepThrpt (v : JValue) (line : List Char) : Except Err (List Char) :=
  match searchThrpt line with
  | none => .error .parseError
  | some tok =>
    match pythonFloat tok with
    | none => .error .floatError
    | some d =>
      match setThroughput v d with
      | none => .error .assignError
      | some rec => writerow rec

/-- The scan loop of the script, from a given pending-record state over the
remaining input lines.  Returns the rows written from this point on, the
final pending state, and the fatal error if one occurred. -/
def processLines : Option JValue → List (List Char) → List (List Char) × Option JValue × Option Err
  | st, [] => ([], st, none)
  | none, line :: rest =>
    match stepConfig line with
    | .error e => ([], none, some e)
    | .ok st2 => processLines st2 rest
  | some v, line :: rest =>
    match stepThrpt v line with
    | .error e => ([], some v, some e)
    | .ok row =>
      let out := processLines none rest
      (row :: out.1, out.2.1, out.2.2)

/-- The whole program on an input: the header first, then the scan loop
from the empty state. -/
def programOutput (lines : List (List Char)) : List (List Char) :=
  headerRow :: (processLines none lines).1

/-- The fatal error of the whole program, if any; `none` means exit code
zero. -/
def programErr (lines : List (List Char)) : Option Err :=
  (processLines none lines).2.2

/-- Big-step execution relation of the scan loop, mirroring each branch of
the Python loop body; used to state determinism of the program as a
relation rather than as a tautology about a function. -/
inductive RunRel : Option JValue → List (List Char) →
    List (List Char) × Option JValue × Option Err → Prop where
  | nil (st : Option JValue) : RunRel st [] ([], st, none)
  | cfgFail (line : List Char) (rest : List (List Char))
      (h : pyJsonLoads (normalizeConfig line) = none) :
      RunRel none (line :: rest) ([], none, some .formatError)
  | cfgNull (line : List Char) (rest : List (List Char)) (out)
      (h : pyJsonLoads (normalizeConfig line) = some .jnull)
      (hrest : RunRel none rest out) :
      RunRel none (line :: rest) out
  | cfgOk (line : List Char) (rest : List (List Char)) (v : JValue) (out)
      (h : pyJsonLoads (normalizeConfig line) = some v) (hv : v ≠ .jnull)
      (hrest : RunRel (some v) rest out) :
      RunRel none (line :: rest) out
  | thrptNoMatch (v : JValue) (line : List Char) (rest : List (List Char))
      (h : searchThrpt line = none) :
      RunRel (some v) (line :: rest) ([], some v, some .parseError)
  | floatFail (v : JValue) (line : List Char) (rest : List (List Char))
      (tok : List Char) (h : searchThrpt line = some tok)
      (hf : pythonFloat tok = none) :
      RunRel (some v) (line :: rest) ([], some v, some .floatError)
  | assignFail (v : JValue) (line : List Char) (rest : List (List Char))
      (tok : List Char) (d : Int × Int) (h : searchThrpt line = some tok)
      (hf : pythonFloat tok = some d) (hs : setThroughput v d = none) :
      RunRel (some v) (line :: rest) ([], some v, some .assignError)
  | rowFail (v : JValue) (line : List Char) (rest : List (List Char))
      (tok : List Char) (d : Int × Int) (rec : Obj) (e : Err)
      (h : searchThrpt line = some tok) (hf : pythonFloat tok = some d)
      (hs : setThroughput v d = some rec) (hw : writerow rec = .error e) :
      RunRel (some v) (line :: rest) ([], some v, some e)
  | rowOk (v : JValue) (line : List Char) (rest : List (List Char))
      (tok : List Char) (d : Int × Int) (rec : Obj) (row : List Char)
      (rows : List (List Char)) (st : Option JValue) (err : Option Err)
      (h : searchThrpt line = some tok) (hf : pythonFloat tok = some d)
      (hs : setThroughput v d = some rec) (hw : writerow rec = .ok row)
      (hrest : RunRel none rest (rows, st, err)) :
      RunRel (some v) (line :: rest) (row :: rows, st, err)

/-! ## Concrete inputs used by the claims -/

/-- The config line quoted by the spec, exactly as quoted (no braces). -/
def cfgLineNoBraces : List Char :=
  withApost "name: *bench1*, set_size_m: 10, batch_size_k: 4, arity: 2, total_memory_m: 64, num_hashing_per_batch: 3, disk_bytes_per_update: 8"

/-- The same config line wrapped in the braces that `json.loads` requires
of an object literal. -/
def cfgLineBraced : List Char :=
  withApost "\x7bname: *bench1*, set_size_m: 10, batch_size_k: 4, arity: 2, total_memory_m: 64, num_hashing_per_batch: 3, disk_bytes_per_update: 8\x7d"

/-- The throughput line quoted by the spec. -/
def thrptLine : List Char := "thrpt:   [123.45 Kelem/s]".data

/-- The CSV data row produced for the braced config line and `thrptLine`. -/
def rowBench1 : List Char := "bench1,10,4,2,64,3,8,123.45".data

/-- A minimal config line, an empty object. -/
def cfgLineEmpty : List Char := withApost "\x7b\x7d"

/-- A throughput line with the wrong unit, from the spec. -/
def thrptLineMelem : List Char := "thrpt: [99.0 Melem/s]".data

/-- A throughput line whose bracketed token has two periods; the pattern
accepts it and `float` then fails on it. -/
def thrptLineTwoDots : List Char := "thrpt:  [1.2.3 Kelem/s]".data

/-- A config line with a key outside the fixed field list. -/
def cfgLineExtra : List Char := withApost "\x7bname: *a*, extra_field: 1\x7d"

/-- A config line with only one of the seven input fields. -/
def cfgLineNameOnly : List Char := withApost "\x7bname: *a*\x7d"

/-- The object decoded from `cfgLineBraced`. -/
def bench1Obj : Obj :=
  [("name".data, .jstr "bench1".data), ("set_size_m".data, .jint 10),
    ("batch_size_k".data, .jint 4), ("arity".data, .jint 2),
    ("total_memory_m".data, .jint 64), ("num_hashing_per_batch".data, .jint 3),
    ("disk_bytes_per_update".data, .jint 8)]

/-- The object decoded from `cfgLineExtra`. -/
def extraObj : Obj :=
  [("name".data, .jstr "a".data), ("extra_field".data, .jint 1)]

/-- A config line assigning a single-quoted value `v` to the key `name`:
the line `\x7bname: *v*\x7d` with `*` the apostrophe. -/
def apostValueLine (v : List Char) : List Char :=
  lbraceChar :: 'n' :: 'a' :: 'm' :: 'e' :: ':' :: ' ' :: apostChar ::
    (v ++ [apostChar, rbraceChar])

/-! ## Alternating-pairs vocabulary -/

/-- The input stream of strictly alternating config and throughput lines
built from a list of pairs. -/
def pairsToLines : List (List Char × List Char) → List (List Char)
  | [] => []
  | p :: ps => p.1 :: p.2 :: pairsToLines ps

/-- A valid config line: it decodes to an object (the Record of the data
model) whose keys all belong to the fixed field list. -/
def configValid (line : List Char) : Prop :=
  ∃ kvs : Obj, pyJsonLoads (normalizeConfig line) = some (.jobj kvs) ∧
    ∀ k ∈ objKeys kvs, k ∈ FIELD_NAMES

/-- A matching throughput line: the extractor captures a token on which
the float conversion succeeds. -/
def thrptValid (line : List Char) : Prop :=
  ∃ tok d, searchThrpt line = some tok ∧ pythonFloat tok = some d

/-- The row the pipeline produces for one (config, throughput) pair, when
every stage succeeds. -/
def rowOfPair (c t : List Char) : Option (List Char) :=
  match pyJsonLoads (normalizeConfig c) with
  | some v =>
    match searchThrpt t with
    | some tok =>
      match pythonFloat tok with
      | some d =>
        match setThroughput v d with
        | some rec =>
          match writerow rec with
          | .ok row => some row
          | .error _ => none
        | none => none
      | none => none
    | none => none
  | none => none

/-! ## Driver-loop lemmas -/

theorem processLines_nil (st : Option JValue) : processLines st [] = ([], st, none) := by
  cases st <;> rfl

/-- Composition of the scan loop over an input split, when the first part
runs without error. -/
theorem processLines_append_ok :
    ∀ (l1 l2 : List (List Char)) (st : Option JValue),
      (processLines st l1).2.2 = none →
      processLines st (l1 ++ l2) =
        ((processLines st l1).1 ++ (processLines (processLines st l1).2.1 l2).1,
          (processLines (processLines st l1).2.1 l2).2) := by
  intro l1
  induction l1 with
  | nil =>
    intro l2 st _
    cases st <;> rfl
  | cons line rest ih =>
    intro l2 st h
    cases st with
    | none =>
      simp only [List.cons_append, processLines] at h ⊢
      rcases hc : stepConfig line with e | st2
      · rw [hc] at h
        simp at h
      · rw [hc] at h
        exact ih _ _ h
    | some v =>
      simp only [List.cons_append, processLines] at h ⊢
      rcases hs : stepThrpt v line with e | row
      · rw [hs] at h
        simp at h
      · rw [hs] at h
        simp at h
        simp [ih l2 none h]


/-- Composition of the scan loop over an input split, when the first part
ends in a fatal error: the rest of the input is never read. -/
theorem processLines_append_err :
    ∀ (l1 l2 : List (List Char)) (st : Option JValue) (e : Err),
      (processLines st l1).2.2 = some e →
      processLines st (l1 ++ l2) = processLines st l1 := by
  intro l1
  induction l1 with
  | nil =>
    intro l2 st e h
    rw [processLines_nil] at h
    simp at h
  | cons line rest ih =>
    intro l2 st e h
    cases st with
    | none =>
      simp only [List.cons_append, processLines] at h ⊢
      rcases hc : stepConfig line with e2 | st2
      · rw [hc] at h
      · rw [hc] at h
        exact ih _ _ _ h
    | some v =>
      simp only [List.cons_append, processLines] at h ⊢
      rcases hs : stepThrpt v line with e2 | row
      · rw [hs] at h
      · rw [hs] at h
        simp at h
        simp [ih l2 none e h]

/-- Every written row consumes one config line and one throughput line, so
at most half the lines (plus the pending record, if any) can become rows. -/
theorem rows_length_le :
    ∀ (lines : List (List Char)) (st : Option JValue),
      2 * (processLines st lines).1.length ≤
        lines.length + (if st.isSome then 1 else 0) := by
  intro lines
  induction lines with
  | nil =>
    intro st
    rw [processLines_nil]
    simp
  | cons line rest ih =>
    intro st
    cases st with
    | none =>
      simp only [processLines]
      rcases hc : stepConfig line with e | st2
      · simp
      · have := ih st2
        cases st2 <;> simp at this ⊢ <;> omega
    | some v =>
      simp only [processLines]
      rcases hs : stepThrpt v line with e | row
      · simp
      · have := ih none
        simp at this ⊢
        omega

/-- A single config line that decodes successfully writes no row and raises
no error. -/
theorem config_single (cfg : List Char) (v : JValue)
    (h : pyJsonLoads (normalizeConfig cfg) = some v) :
    (processLines none [cfg]).1 = [] ∧ (processLines none [cfg]).2.2 = none := by
  cases v <;> simp [processLines, stepConfig, h]

/-- C1: the spec quotes the config line without braces; on that exact
input `json.loads` fails (a string followed by extra data is not one JSON
value), so the program aborts with the format error and emits no data row
at all, instead of the claimed row. -/
theorem claim_C1_counterexample :
    processLines none [cfgLineNoBraces, thrptLine] = ([], none, some Err.formatError) ∧
      programOutput [cfgLineNoBraces, thrptLine] = [headerRow] ∧
      programErr [cfgLineNoBraces, thrptLine] = some Err.formatError :=
  ⟨rfl, rfl, rfl⟩

/-- C1 (amended): for the brace-delimited form of that config line followed
by the quoted throughput line, the program emits exactly one CSV data row,
namely `bench1,10,4,2,64,3,8,123.45`: the `k_updates_per_sec` field is
`123.45` and the other seven fields are copied verbatim from the config
line. -/
theorem claim_C1 :
    processLines none [cfgLineBraced, thrptLine] = ([rowBench1], none, none) ∧
      programOutput [cfgLineBraced, thrptLine] = [headerRow, rowBench1] ∧
      programErr [cfgLineBraced, thrptLine] = none :=
  ⟨rfl, rfl, rfl⟩

/-- C2: whenever the scanner holds a pending record (a state reached
without error after some prefix of the input) and the next line does not
match the throughput pattern, the run fails with the parse error at once:
no row is emitted for the pending record, the rest of the input is not
consumed, and the process exits non-zero (the `some` error component). -/
theorem claim_C2 (pre : List (List Char)) (line : List Char)
    (rest : List (List Char)) (rows : List (List Char)) (v : JValue)
    (h1 : processLines none pre = (rows, some v, none))
    (h2 : searchThrpt line = none) :
    processLines none (pre ++ line :: rest) = (rows, some v, some Err.parseError) := by
  have hA := processLines_append_ok pre (line :: rest) none (by rw [h1])
  rw [h1] at hA
  have hstep : processLines (some v) (line :: rest) = ([], some v, some Err.parseError) := by
    simp [processLines, stepThrpt, h2]
  rw [hstep] at hA
  simpa using hA

/-- C2 witness: an empty-object config line followed by the Melem line
from the spec. -/
theorem claim_C2_witness :
    processLines none ([cfgLineEmpty] ++ thrptLineMelem :: []) =
      ([], some (JValue.jobj []), some Err.parseError) :=
  claim_C2 [cfgLineEmpty] thrptLineMelem [] [] (JValue.jobj []) rfl rfl

/-- C3: the loop holds at most one pending record (the state is a single
`Option`-valued variable), so each emitted row consumes two lines: the row
count is bounded by half of the consumed lines (plus one potential row for
an initially pending record).  Moreover a trailing config line whose
throughput line never arrives contributes no row: appending it to an
error-free run leaves the emitted rows unchanged. -/
theorem claim_C3 (st : Option JValue) (lines : List (List Char))
    (cfg : List Char) (v : JValue) (rows : List (List Char))
    (h1 : processLines none lines = (rows, none, none))
    (h2 : pyJsonLoads (normalizeConfig cfg) = some v) :
    2 * (processLines st lines).1.length ≤
        lines.length + (if st.isSome then 1 else 0) ∧
      (processLines none (lines ++ [cfg])).1 = rows := by
  refine ⟨rows_length_le lines st, ?_⟩
  have hA := processLines_append_ok lines [cfg] none (by rw [h1])
  rw [h1] at hA
  rw [hA]
  simp [(config_single cfg v h2).1]

/-- C3 witness: the empty run with a pending empty object, extended by the
empty-object config line. -/
theorem claim_C3_witness :
    2 * (processLines (some (JValue.jobj [])) ([] : List (List Char))).1.length ≤
        ([] : List (List Char)).length +
          (if (some (JValue.jobj [])).isSome then 1 else 0) ∧
      (processLines none (([] : List (List Char)) ++ [cfgLineEmpty])).1 = [] :=
  claim_C3 (some (JValue.jobj [])) [] cfgLineEmpty (JValue.jobj []) [] rfl rfl

/-- C6: an input that ends right after a config line (an error-free run to
the awaiting-config state, then one decodable config line, then end of
input) discards the pending record: the emitted rows are unchanged and the
error component stays `none`, so the program exits with code zero. -/
theorem claim_C6 (pre : List (List Char)) (cfg : List Char) (v : JValue)
    (rows : List (List Char))
    (h1 : processLines none pre = (rows, none, none))
    (h2 : pyJsonLoads (normalizeConfig cfg) = some v) :
    programOutput (pre ++ [cfg]) = headerRow :: rows ∧
      programErr (pre ++ [cfg]) = none := by
  have hA := processLines_append_ok pre [cfg] none (by rw [h1])
  rw [h1] at hA
  obtain ⟨hr, he⟩ := config_single cfg v h2
  constructor
  · simp [programOutput, hA, hr]
  · simp [programErr, hA, he]

/-- C6 witness: the input consisting of one empty-object config line. -/
theorem claim_C6_witness :
    programOutput (([] : List (List Char)) ++ [cfgLineEmpty]) = headerRow :: [] ∧
      programErr (([] : List (List Char)) ++ [cfgLineEmpty]) = none :=
  claim_C6 [] cfgLineEmpty (JValue.jobj []) [] rfl rfl

/-- The function `processLines` is a run of the big-step relation: every
input has at least one execution. -/
theorem runRel_total :
    ∀ (lines : List (List Char)) (st : Option JValue),
      RunRel st lines (processLines st lines) := by
  intro lines
  induction lines with
  | nil =>
    intro st
    rw [processLines_nil]
    exact RunRel.nil st
  | cons line rest ih =>
    intro st
    cases st with
    | none =>
      simp only [processLines]
      rcases hc : stepConfig line with e | st2
      · unfold stepConfig at hc
        rcases hl : pyJsonLoads (normalizeConfig line) with _ | v
        · rw [hl] at hc
          simp at hc
          subst hc
          exact RunRel.cfgFail line rest hl
        · rw [hl] at hc
          cases v <;> simp at hc
      · unfold stepConfig at hc
        rcases hl : pyJsonLoads (normalizeConfig line) with _ | v
        · rw [hl] at hc
          simp at hc
        · rw [hl] at hc
          cases v with
          | jnull =>
            simp at hc
            subst hc
            exact RunRel.cfgNull line rest _ hl (ih none)
          | jbool b =>
            simp at hc
            subst hc
            exact RunRel.cfgOk line rest _ _ hl (fun h => JValue.noConfusion h) (ih _)
          | jint i =>
            simp at hc
            subst hc
            exact RunRel.cfgOk line rest _ _ hl (fun h => JValue.noConfusion h) (ih _)
          | jfloat m e =>
            simp at hc
            subst hc
            exact RunRel.cfgOk line rest _ _ hl (fun h => JValue.noConfusion h) (ih _)
          | jstr s =>
            simp at hc
            subst hc
            exact RunRel.cfgOk line rest _ _ hl (fun h => JValue.noConfusion h) (ih _)
          | jarr vs =>
            simp at hc
            subst hc
            exact RunRel.cfgOk line rest _ _ hl (fun h => JValue.noConfusion h) (ih _)
          | jobj kvs =>
            simp at hc
            subst hc
            exact RunRel.cfgOk line rest _ _ hl (fun h => JValue.noConfusion h) (ih _)
    | some v =>
      simp only [processLines]
      rcases hs : stepThrpt v line with e | row
      · unfold stepThrpt at hs
        rcases h1 : searchThrpt line with _ | tok
        · rw [h1] at hs
          simp at hs
          subst hs
          exact RunRel.thrptNoMatch v line rest h1
        · rw [h1] at hs
          simp only [] at hs
          rcases h2 : pythonFloat tok with _ | d
          · rw [h2] at hs
            simp at hs
            subst hs
            exact RunRel.floatFail v line rest tok h1 h2
          · rw [h2] at hs
            simp only [] at hs
            rcases h3 : setThroughput v d with _ | rec
            · rw [h3] at hs
              simp at hs
              subst hs
              exact RunRel.assignFail v line rest tok d h1 h2 h3
            · rw [h3] at hs
              simp only [] at hs
              exact RunRel.rowFail v line rest tok d rec e h1 h2 h3 hs
      · unfold stepThrpt at hs
        rcases h1 : searchThrpt line with _ | tok
        · rw [h1] at hs
          simp at hs
        · rw [h1] at hs
          simp only [] at hs
          rcases h2 : pythonFloat tok with _ | d
          · rw [h2] at hs
            simp at hs
          · rw [h2] at hs
            simp only [] at hs
            rcases h3 : setThroughput v d with _ | rec
            · rw [h3] at hs
              simp at hs
            · rw [h3] at hs
              simp only [] at hs
              exact RunRel.rowOk v line rest tok d rec row _ _ _ h1 h2 h3 hs (ih none)

/-- The big-step relation is deterministic: at every configuration exactly
one branch of the loop body applies. -/
theorem runRel_det {st : Option JValue} {lines : List (List Char)}
    {o1 o2 : List (List Char) × Option JValue × Option Err}
    (h1 : RunRel st lines o1) (h2 : RunRel st lines o2) : o1 = o2 := by
  induction h1 generalizing o2 with
  | nil st =>
    cases h2
    rfl
  | cfgFail line rest h =>
    cases h2 <;> simp_all
  | cfgNull line rest out h hrest ih =>
    cases h2 with
    | cfgFail _ _ h2h => simp_all
    | cfgNull _ _ _ h2h h2rest => exact ih h2rest
    | cfgOk _ _ v2 _ h2h hv2 h2rest =>
      rw [h] at h2h
      simp at h2h
      exact absurd h2h.symm hv2
  | cfgOk line rest v out h hv hrest ih =>
    cases h2 with
    | cfgFail _ _ h2h => simp_all
    | cfgNull _ _ _ h2h h2rest =>
      rw [h] at h2h
      simp at h2h
      exact absurd h2h hv
    | cfgOk _ _ v2 _ h2h hv2 h2rest =>
      rw [h] at h2h
      simp at h2h
      subst h2h
      exact ih h2rest
  | thrptNoMatch v line rest h =>
    cases h2 with
    | thrptNoMatch => rfl
    | floatFail _ _ _ tok2 h2h h2f => simp_all
    | assignFail _ _ _ tok2 d2 h2h h2f h2s => simp_all
    | rowFail _ _ _ tok2 d2 rec2 e2 h2h h2f h2s h2w => simp_all
    | rowOk _ _ _ tok2 d2 rec2 row2 rows2 st3 err2 h2h h2f h2s h2w h2rest => simp_all
  | floatFail v line rest tok h hf =>
    cases h2 with
    | thrptNoMatch _ _ _ h2h => simp_all
    | floatFail _ _ _ tok2 h2h h2f => rfl
    | assignFail _ _ _ tok2 d2 h2h h2f h2s => simp_all
    | rowFail _ _ _ tok2 d2 rec2 e2 h2h h2f h2s h2w => simp_all
    | rowOk _ _ _ tok2 d2 rec2 row2 rows2 st3 err2 h2h h2f h2s h2w h2rest => simp_all
  | assignFail v line rest tok d h hf hs =>
    cases h2 with
    | thrptNoMatch _ _ _ h2h => simp_all
    | floatFail _ _ _ tok2 h2h h2f => simp_all
    | assignFail _ _ _ tok2 d2 h2h h2f h2s => rfl
    | rowFail _ _ _ tok2 d2 rec2 e2 h2h h2f h2s h2w => simp_all
    | rowOk _ _ _ tok2 d2 rec2 row2 rows2 st3 err2 h2h h2f h2s h2w h2rest => simp_all
  | rowFail v line rest tok d rec e h hf hs hw =>
    cases h2 with
    | thrptNoMatch _ _ _ h2h => simp_all
    | floatFail _ _ _ tok2 h2h h2f => simp_all
    | assignFail _ _ _ tok2 d2 h2h h2f h2s => simp_all
    | rowFail _ _ _ tok2 d2 rec2 e2 h2h h2f h2s h2w => simp_all
    | rowOk _ _ _ tok2 d2 rec2 row2 rows2 st3 err2 h2h h2f h2s h2w h2rest => simp_all
  | rowOk v line rest tok d rec row rows st2 err h hf hs hw hrest ih =>
    cases h2 with
    | thrptNoMatch _ _ _ h2h => simp_all
    | floatFail _ _ _ tok2 h2h h2f => simp_all
    | assignFail _ _ _ tok2 d2 h2h h2f h2s => simp_all
    | rowFail _ _ _ tok2 d2 rec2 e2 h2h h2f h2s h2w => simp_all
    | rowOk _ _ _ tok2 d2 rec2 row2 rows2 st3 err2 h2h h2f h2s h2w h2rest =>
      rw [h] at h2h
      injection h2h with htok
      subst htok
      rw [hf] at h2f
      injection h2f with hd
      subst hd
      rw [hs] at h2s
      injection h2s with hrec
      subst hrec
      rw [hw] at h2w
      injection h2w with hrow
      subst hrow
      have hpair := ih h2rest
      simp only [Prod.mk.injEq] at hpair
      obtain ⟨hA, hB, hC⟩ := hpair
      subst hA
      subst hB
      subst hC
      rfl

/-- C9: the program is a deterministic function of its input: any two
executions of the scan loop on the same input lines produce the same rows,
final state and outcome, so two runs of the tool on the same input emit
byte-identical output (there is no hidden state). -/
theorem claim_C9 (lines : List (List Char))
    (o1 o2 : List (List Char) × Option JValue × Option Err)
    (h1 : RunRel none lines o1) (h2 : RunRel none lines o2) : o1 = o2 :=
  runRel_det h1 h2

/-- C9 witness: two executions on the one-line input agree. -/
theorem claim_C9_witness :
    (([], some (JValue.jobj []), none) :
        List (List Char) × Option JValue × Option Err) =
      ([], some (JValue.jobj []), none) :=
  claim_C9 [cfgLineEmpty] _ _ (runRel_total [cfgLineEmpty] none)
    (runRel_total [cfgLineEmpty] none)

/-- Any token produced by the part of the pattern after `thrpt:` is a
nonempty run of characters of the class `[\d.]`. -/
theorem matchAfterColon_some (rest tok : List Char)
    (h : matchAfterColon rest = some tok) :
    tok ≠ [] ∧ ∀ c ∈ tok, isDigitDot c := by
  simp only [matchAfterColon] at h
  split at h
  · simp at h
  · split at h
    · split at h
      · simp at h
      · split at h
        · injection h with h
          subst h
          refine ⟨?_, fun c hc => List.mem_takeWhile_imp hc⟩
          assumption
        · simp at h
    · simp at h

/-- Any token produced by an attempt of the whole pattern is a nonempty
run of characters of the class `[\d.]`. -/
theorem matchThrptAt_some (s tok : List Char) (h : matchThrptAt s = some tok) :
    tok ≠ [] ∧ ∀ c ∈ tok, isDigitDot c := by
  unfold matchThrptAt at h
  split at h
  · exact matchAfterColon_some _ _ h
  · simp at h

/-- Any token captured by the search is a nonempty run of characters of
the class `[\d.]`. -/
theorem searchThrpt_some :
    ∀ (line tok : List Char), searchThrpt line = some tok →
      tok ≠ [] ∧ ∀ c ∈ tok, isDigitDot c := by
  intro line
  induction line with
  | nil =>
    intro tok h
    simp [searchThrpt] at h
  | cons c cs ih =>
    intro tok h
    simp only [searchThrpt] at h
    rcases hm : matchThrptAt (c :: cs) with _ | t
    · rw [hm] at h
      simp only [] at h
      exact ih tok h
    · rw [hm] at h
      simp only [] at h
      injection h with h
      subst h
      exact matchThrptAt_some _ _ hm

/-- The float conversion succeeds on every well-formed token. -/
theorem pythonFloat_isSome (tok : List Char) (h1 : tok ≠ [])
    (h2 : ∀ c ∈ tok, isDigitDot c) (h3 : tok.count '.' ≤ 1)
    (h4 : ∃ c ∈ tok, isDigitChar c) : (pythonFloat tok).isSome := by
  unfold pythonFloat
  split
  · simp
  · next hneg => exact absurd ⟨h1, h2, h3, h4⟩ hneg

/-- C5 (amended): every token captured by the throughput pattern is a
nonempty string of digits and periods, and the float conversion succeeds
on those tokens having at most one period and at least one digit; the
pattern however also accepts tokens with several periods, on which the
conversion fails (see the counterexample). -/
theorem claim_C5 (line tok : List Char) (h : searchThrpt line = some tok) :
    (tok ≠ [] ∧ ∀ c ∈ tok, isDigitDot c) ∧
      ((tok.count '.' ≤ 1 ∧ ∃ c ∈ tok, isDigitChar c) →
        (pythonFloat tok).isSome) := by
  obtain ⟨hne, hall⟩ := searchThrpt_some line tok h
  exact ⟨⟨hne, hall⟩,
    fun hc => pythonFloat_isSome tok hne hall hc.1 hc.2⟩

/-- C5 counterexample: the pattern accepts the line with bracketed token
`1.2.3`, whose captured text has two decimal points, and the float
conversion fails on it, so the claim that captured tokens have at most one
decimal point and always convert is false; the program aborts with the
ValueError on this line. -/
theorem claim_C5_counterexample :
    searchThrpt thrptLineTwoDots = some "1.2.3".data ∧
      "1.2.3".data.count '.' = 2 ∧
      pythonFloat "1.2.3".data = none ∧
      processLines (some (JValue.jobj [])) [thrptLineTwoDots] =
        ([], some (JValue.jobj []), some Err.floatError) :=
  ⟨rfl, rfl, rfl, rfl⟩

/-- C5 witness: the amended statement applied to the throughput line of
the spec, with captured token `123.45`. -/
theorem claim_C5_witness :
    ("123.45".data ≠ [] ∧ ∀ c ∈ "123.45".data, isDigitDot c) ∧
      (("123.45".data.count '.' ≤ 1 ∧ ∃ c ∈ "123.45".data, isDigitChar c) →
        (pythonFloat "123.45".data).isSome) :=
  claim_C5 thrptLine "123.45".data rfl

/-! ## Dict lemmas -/

theorem mem_objKeys_insertKey (k k2 : List Char) (v : JValue) (o : Obj) :
    k ∈ objKeys (insertKey k2 v o) ↔ k = k2 ∨ k ∈ objKeys o := by
  induction o with
  | nil => simp [insertKey, objKeys]
  | cons kv rest ih =>
    obtain ⟨k3, v3⟩ := kv
    simp only [insertKey]
    split
    · next heq =>
      subst heq
      simp only [objKeys, List.map_cons, List.mem_cons]
      tauto
    · simp only [objKeys, List.map_cons, List.mem_cons] at ih ⊢
      rw [ih]
      tauto

theorem lookupKey_insertKey_self (k : List Char) (v : JValue) (o : Obj) :
    lookupKey k (insertKey k v o) = some v := by
  induction o with
  | nil => simp [insertKey, lookupKey]
  | cons kv rest ih =>
    obtain ⟨k3, v3⟩ := kv
    simp only [insertKey]
    split
    · next heq =>
      subst heq
      simp [lookupKey]
    · next hne =>
      simp [lookupKey, hne, ih]

theorem lookupKey_insertKey_ne (k k2 : List Char) (v : JValue) (o : Obj)
    (h : k ≠ k2) : lookupKey k (insertKey k2 v o) = lookupKey k o := by
  have hsym : ¬(k2 = k) := fun hh => h hh.symm
  induction o with
  | nil => simp [insertKey, lookupKey, hsym]
  | cons kv rest ih =>
    obtain ⟨k3, v3⟩ := kv
    simp only [insertKey]
    split
    · next heq =>
      subst heq
      simp [lookupKey, hsym]
    · simp [lookupKey, ih]

theorem lookupKey_eq_none (k : List Char) (o : Obj) :
    lookupKey k o = none ↔ k ∉ objKeys o := by
  induction o with
  | nil => simp [lookupKey, objKeys]
  | cons kv rest ih =>
    obtain ⟨k3, v3⟩ := kv
    simp only [lookupKey]
    split
    · next heq =>
      subst heq
      simp [objKeys]
    · next hne =>
      have hne2 : ¬(k = k3) := fun hh => hne hh.symm
      rw [ih]
      simp [objKeys, hne2]

theorem hasExtraKey_eq_false (o : Obj) :
    hasExtraKey o = false ↔ ∀ k ∈ objKeys o, k ∈ FIELD_NAMES := by
  simp only [hasExtraKey, List.any_eq_false, objKeys, List.mem_map]
  constructor
  · intro h k hk
    obtain ⟨kv, hkv, rfl⟩ := hk
    have := h kv hkv
    simpa using this
  · intro h kv hkv
    have := h kv.1 ⟨kv, hkv, rfl⟩
    simpa using this

theorem hasExtraKey_eq_true (o : Obj) :
    hasExtraKey o = true ↔ ∃ k ∈ objKeys o, k ∉ FIELD_NAMES := by
  constructor
  · intro h
    by_contra hn
    push_neg at hn
    have hf := (hasExtraKey_eq_false o).mpr hn
    rw [hf] at h
    exact absurd h (by simp)
  · rintro ⟨k, hk, hnot⟩
    simp only [objKeys, List.mem_map] at hk
    obtain ⟨kv, hkv, rfl⟩ := hk
    simp only [hasExtraKey, List.any_eq_true]
    exact ⟨kv, hkv, by simpa using hnot⟩

theorem hasExtraKey_insert (kvs : Obj) (f : JValue)
    (h : ∀ k ∈ objKeys kvs, k ∈ FIELD_NAMES) :
    hasExtraKey (insertKey kUpdKey f kvs) = false := by
  rw [hasExtraKey_eq_false]
  intro k hk
  rcases (mem_objKeys_insertKey k kUpdKey f kvs).mp hk with rfl | hk2
  · decide
  · exact h k hk2

/-- C4: for a stream of strictly alternating valid config lines and
matching throughput lines, the run ends without error in the
awaiting-config state, the emitted rows are exactly the rows of the pairs
in input order, and their number equals the number of pairs consumed. -/
theorem claim_C4 (pairs : List (List Char × List Char))
    (h : ∀ p ∈ pairs, configValid p.1 ∧ thrptValid p.2) :
    processLines none (pairsToLines pairs) =
      (pairs.filterMap (fun p => rowOfPair p.1 p.2), none, none) ∧
      (pairs.filterMap (fun p => rowOfPair p.1 p.2)).length = pairs.length := by
  induction pairs with
  | nil =>
    constructor
    · simp [pairsToLines, processLines_nil]
    · simp
  | cons p ps ih =>
    obtain ⟨⟨kvs, hload, hkeys⟩, tok, d, hsearch, hfloat⟩ :=
      h p (List.mem_cons_self p ps)
    have hrest := ih fun q hq => h q (List.mem_cons_of_mem p hq)
    have hsc : stepConfig p.1 = .ok (some (.jobj kvs)) := by
      simp [stepConfig, hload]
    have hw : writerow (insertKey kUpdKey (.jfloat d.1 d.2) kvs) =
        .ok (joinComma (FIELD_NAMES.map
          (cellOf (insertKey kUpdKey (.jfloat d.1 d.2) kvs)))) := by
      simp [writerow, hasExtraKey_insert kvs _ hkeys]
    have hst : stepThrpt (.jobj kvs) p.2 =
        .ok (joinComma (FIELD_NAMES.map
          (cellOf (insertKey kUpdKey (.jfloat d.1 d.2) kvs)))) := by
      simp [stepThrpt, hsearch, hfloat, setThroughput, hw]
    have hrp : rowOfPair p.1 p.2 =
        some (joinComma (FIELD_NAMES.map
          (cellOf (insertKey kUpdKey (.jfloat d.1 d.2) kvs)))) := by
      simp [rowOfPair, hload, hsearch, hfloat, setThroughput, hw]
    constructor
    · show processLines none (p.1 :: p.2 :: pairsToLines ps) = _
      simp only [processLines, hsc, hst]
      simp [hrest.1, List.filterMap_cons, hrp]
    · simp [List.filterMap_cons, hrp, hrest.2]

/-- C4 witness: the single valid pair quoted by the spec (braced form). -/
theorem claim_C4_witness :
    processLines none (pairsToLines [(cfgLineBraced, thrptLine)]) =
      ([(cfgLineBraced, thrptLine)].filterMap (fun p => rowOfPair p.1 p.2),
        none, none) ∧
      ([(cfgLineBraced, thrptLine)].filterMap
          (fun p => rowOfPair p.1 p.2)).length =
        [(cfgLineBraced, thrptLine)].length :=
  claim_C4 [(cfgLineBraced, thrptLine)] (by
    intro p hp
    rw [List.mem_singleton] at hp
    subst hp
    exact ⟨⟨bench1Obj, rfl, by decide⟩, "123.45".data, (12345, -2), rfl, rfl⟩)

/-- C10: once a decoded config object and an extracted throughput value
reach the writer, a key outside the fixed field list makes `writerow`
raise, aborting the run with no row for that record and a non-zero exit;
whereas keys may be missing: the row is then written normally, with the
empty cell for every absent field. -/
theorem claim_C10 (cfg t : List Char) (rest : List (List Char)) (kvs : Obj)
    (tok : List Char) (d : Int × Int)
    (h1 : pyJsonLoads (normalizeConfig cfg) = some (.jobj kvs))
    (h2 : searchThrpt t = some tok) (h3 : pythonFloat tok = some d) :
    ((∃ k ∈ objKeys kvs, k ∉ FIELD_NAMES) →
        processLines none (cfg :: t :: rest) =
          ([], some (.jobj kvs), some Err.extraField)) ∧
      ((∀ k ∈ objKeys kvs, k ∈ FIELD_NAMES) →
        processLines none (cfg :: t :: rest) =
          (joinComma (FIELD_NAMES.map
              (cellOf (insertKey kUpdKey (.jfloat d.1 d.2) kvs))) ::
            (processLines none rest).1, (processLines none rest).2) ∧
        ∀ f ∈ FIELD_NAMES, f ∉ objKeys kvs → f ≠ kUpdKey →
          cellOf (insertKey kUpdKey (.jfloat d.1 d.2) kvs) f = []) := by
  have hsc : stepConfig cfg = .ok (some (.jobj kvs)) := by
    simp [stepConfig, h1]
  constructor
  · intro hex
    have hextra : hasExtraKey (insertKey kUpdKey (.jfloat d.1 d.2) kvs) = true := by
      rw [hasExtraKey_eq_true]
      obtain ⟨k, hk, hnot⟩ := hex
      refine ⟨k, ?_, hnot⟩
      rw [mem_objKeys_insertKey]
      exact Or.inr hk
    have hst : stepThrpt (.jobj kvs) t = .error .extraField := by
      simp [stepThrpt, h2, h3, setThroughput, writerow, hextra]
    simp only [processLines, hsc, hst]
  · intro hkeys
    have hw : writerow (insertKey kUpdKey (.jfloat d.1 d.2) kvs) =
        .ok (joinComma (FIELD_NAMES.map
          (cellOf (insertKey kUpdKey (.jfloat d.1 d.2) kvs)))) := by
      simp [writerow, hasExtraKey_insert kvs _ hkeys]
    have hst : stepThrpt (.jobj kvs) t =
        .ok (joinComma (FIELD_NAMES.map
          (cellOf (insertKey kUpdKey (.jfloat d.1 d.2) kvs)))) := by
      simp [stepThrpt, h2, h3, setThroughput, hw]
    constructor
    · simp only [processLines, hsc, hst]
    · intro f _ hmem hne
      unfold cellOf
      rw [lookupKey_insertKey_ne f kUpdKey _ kvs hne,
        (lookupKey_eq_none f kvs).mpr hmem]

/-- C10 witness: the config line with the key `extra_field` aborts the run
with the extra-key error, writing no row for it. -/
theorem claim_C10_witness :
    processLines none (cfgLineExtra :: thrptLine :: []) =
      ([], some (JValue.jobj extraObj), some Err.extraField) :=
  (claim_C10 cfgLineExtra thrptLine [] extraObj "123.45".data (12345, -2)
      rfl rfl rfl).1
    ⟨"extra_field".data, by decide, by decide⟩

/-! ## Rendering lemmas: every data row ends in a digit character -/

theorem isDigitChar_digitChar (d : Nat) : isDigitChar (digitChar d) = true := by
  unfold digitChar
  repeat' split
  all_goals decide

theorem isCsvSpecial_digitChar (d : Nat) : isCsvSpecial (digitChar d) = false := by
  unfold digitChar
  repeat' split
  all_goals decide

theorem digitChar_ne_c (d : Nat) : digitChar d ≠ 'c' := by
  unfold digitChar
  repeat' split
  all_goals decide

theorem getLast?_cons_ne {α : Type} (a : α) (l : List α) (h : l ≠ []) :
    (a :: l).getLast? = l.getLast? := by
  cases l with
  | nil => exact absurd rfl h
  | cons b t => exact List.getLast?_cons_cons

theorem natDigits_ne_nil (n : Nat) : natDigits n ≠ [] := by
  unfold natDigits natDigitsAux
  split
  · simp
  · simp

theorem natDigits_getLast (n : Nat) :
    (natDigits n).getLast? = some (digitChar (n % 10)) := by
  unfold natDigits natDigitsAux
  split
  · next h =>
    rw [Nat.mod_eq_of_lt h]
    rfl
  · rw [List.getLast?_append_cons]
    rfl

theorem natDigitsAux_chars :
    ∀ (f n : Nat) (c : Char), c ∈ natDigitsAux f n → ∃ d, c = digitChar d := by
  intro f
  induction f with
  | zero =>
    intro n c h
    simp [natDigitsAux] at h
  | succ f ih =>
    intro n c h
    simp only [natDigitsAux] at h
    split at h
    · rw [List.mem_singleton] at h
      exact ⟨n, h⟩
    · rw [List.mem_append, List.mem_singleton] at h
      rcases h with h | h
      · exact ih _ _ h
      · exact ⟨n % 10, h⟩

theorem padDigits_ne_nil (ds : List Char) (k : Nat) (h : ds ≠ []) :
    padDigits ds k ≠ [] := by
  unfold padDigits
  split
  · exact h
  · simp [h]

theorem padDigits_getLast (ds : List Char) (k : Nat) (h : ds ≠ []) :
    (padDigits ds k).getLast? = ds.getLast? := by
  unfold padDigits
  split
  · rfl
  · exact List.getLast?_append_of_ne_nil _ h

theorem renderFrac_getLast (sgn ds : List Char) (k : Nat) (hds : ds ≠ [])
    (hk : 1 ≤ k) : (renderFrac sgn ds k).getLast? = ds.getLast? := by
  unfold renderFrac
  rw [List.getLast?_append_cons]
  have hlen : 1 ≤ (padDigits ds k).length :=
    List.length_pos.mpr (padDigits_ne_nil ds k hds)
  have hdne : (padDigits ds k).drop ((padDigits ds k).length - k) ≠ [] := by
    intro hnil
    have hlen2 := congrArg List.length hnil
    rw [List.length_drop] at hlen2
    simp at hlen2
    omega
  rw [getLast?_cons_ne _ _ hdne]
  conv_rhs => rw [← padDigits_getLast ds k hds,
    ← List.take_append_drop ((padDigits ds k).length - k) (padDigits ds k),
    List.getLast?_append_of_ne_nil _ hdne]

theorem renderFloat_getLast (m e : Int) :
    ∃ d, (renderFloat m e).getLast? = some (digitChar d) := by
  simp only [renderFloat]
  split
  · exact ⟨0, rfl⟩
  · split
    · refine ⟨0, ?_⟩
      rw [List.getLast?_append_cons]
      rfl
    · next hpos =>
      refine ⟨(stripZeros m.natAbs m e).1.natAbs % 10, ?_⟩
      rw [renderFrac_getLast _ _ _ (natDigits_ne_nil _) (by omega)]
      exact natDigits_getLast _

theorem mem_sgn_list (b : Prop) [Decidable b] (c : Char)
    (h : c ∈ (if b then ['-'] else ([] : List Char))) : c = '-' := by
  split at h
  · simpa using h
  · simp at h

theorem padDigits_chars (ds : List Char) (k : Nat) (c : Char)
    (hds : ∀ x ∈ ds, ∃ d, x = digitChar d) (h : c ∈ padDigits ds k) :
    ∃ d, c = digitChar d := by
  unfold padDigits at h
  split at h
  · exact hds c h
  · rw [List.mem_append] at h
    rcases h with h | h
    · rw [List.eq_of_mem_replicate h]
      exact ⟨0, rfl⟩
    · exact hds c h

theorem renderFloat_chars (m e : Int) (c : Char) (h : c ∈ renderFloat m e) :
    (∃ d, c = digitChar d) ∨ c = '.' ∨ c = '-' := by
  simp only [renderFloat] at h
  split at h
  · rw [List.mem_cons, List.mem_cons, List.mem_singleton] at h
    rcases h with rfl | rfl | rfl
    · exact Or.inl ⟨0, rfl⟩
    · exact Or.inr (Or.inl rfl)
    · exact Or.inl ⟨0, rfl⟩
  · split at h
    · rw [List.mem_append, List.mem_append, List.mem_cons, List.mem_singleton] at h
      rcases h with (h | h) | rfl | rfl
      · exact Or.inr (Or.inr (mem_sgn_list _ _ h))
      · obtain ⟨d, rfl⟩ := natDigitsAux_chars _ _ _ h
        exact Or.inl ⟨d, rfl⟩
      · exact Or.inr (Or.inl rfl)
      · exact Or.inl ⟨0, rfl⟩
    · unfold renderFrac at h
      rw [List.mem_append, List.mem_append, List.mem_cons] at h
      have hpd : ∀ x ∈ padDigits (natDigits (stripZeros m.natAbs m e).1.natAbs)
          (-(stripZeros m.natAbs m e).2).toNat, ∃ d, x = digitChar d :=
        fun x hx => padDigits_chars _ _ x (fun y hy => natDigitsAux_chars _ _ y hy) hx
      rcases h with (h | h) | rfl | h
      · exact Or.inr (Or.inr (mem_sgn_list _ _ h))
      · exact Or.inl (hpd c (List.take_subset _ _ h))
      · exact Or.inr (Or.inl rfl)
      · exact Or.inl (hpd c (List.drop_subset _ _ h))

theorem csvQuote_renderFloat (m e : Int) :
    csvQuote (renderFloat m e) = renderFloat m e := by
  have hno : ¬((renderFloat m e).any isCsvSpecial = true) := by
    rw [List.any_eq_true]
    rintro ⟨c, hc, hspec⟩
    rcases renderFloat_chars m e c hc with ⟨d, rfl⟩ | rfl | rfl
    · rw [isCsvSpecial_digitChar] at hspec
      exact absurd hspec (by simp)
    · exact absurd hspec (by decide)
    · exact absurd hspec (by decide)
  unfold csvQuote
  rw [if_neg hno]

theorem joinComma_getLast :
    ∀ (xs : List (List Char)) (y : List Char), y ≠ [] →
      (joinComma (xs ++ [y])).getLast? = y.getLast? := by
  intro xs
  induction xs with
  | nil =>
    intro y hy
    simp [joinComma]
  | cons x xs ih =>
    intro y hy
    have hih := ih y hy
    have hysome : ∃ c, y.getLast? = some c := by
      cases hcase : y.getLast? with
      | none => exact absurd (List.getLast?_eq_none_iff.mp hcase) hy
      | some c => exact ⟨c, rfl⟩
    obtain ⟨c, hc⟩ := hysome
    have hJne : joinComma (xs ++ [y]) ≠ [] := by
      intro hnil
      rw [hnil, hc] at hih
      simp at hih
    have hstep : joinComma (x :: (xs ++ [y])) = x ++ ',' :: joinComma (xs ++ [y]) := by
      cases xs with
      | nil => simp [joinComma]
      | cons z zs => simp [joinComma]
    show (joinComma (x :: (xs ++ [y]))).getLast? = y.getLast?
    rw [hstep, List.getLast?_append_cons, getLast?_cons_ne _ _ hJne]
    exact hih

/-- When the record holds a float under `k_updates_per_sec`, the written
row ends in a digit character (its last field is the rendered float). -/
theorem writerow_ok_getLast (rec : Obj) (row : List Char) (m e : Int)
    (hl : lookupKey kUpdKey rec = some (.jfloat m e))
    (hw : writerow rec = .ok row) :
    ∃ d, row.getLast? = some (digitChar d) := by
  unfold writerow at hw
  split at hw
  · exact absurd hw (by simp)
  · injection hw with hw
    subst hw
    have hcell : cellOf rec kUpdKey = renderFloat m e := by
      unfold cellOf
      rw [hl]
      simp only [cellStr]
      exact csvQuote_renderFloat m e
    obtain ⟨d, hd⟩ := renderFloat_getLast m e
    have hne : cellOf rec kUpdKey ≠ [] := by
      rw [hcell]
      intro hnil
      rw [hnil] at hd
      simp at hd
    have hsplit : FIELD_NAMES.map (cellOf rec) =
        ["name".data, "set_size_m".data, "batch_size_k".data, "arity".data,
          "total_memory_m".data, "num_hashing_per_batch".data,
          "disk_bytes_per_update".data].map (cellOf rec) ++
          [cellOf rec kUpdKey] := by
      simp [FIELD_NAMES, kUpdKey]
    rw [hsplit, joinComma_getLast _ _ hne, hcell, hd]
    exact ⟨d, rfl⟩

/-- Every row the scan loop ever writes ends in a digit character: the
last field of a written row is always the freshly stored throughput float. -/
theorem processLines_rows_digit :
    ∀ (lines : List (List Char)) (st : Option JValue) (r : List Char),
      r ∈ (processLines st lines).1 →
      ∃ d, r.getLast? = some (digitChar d) := by
  intro lines
  induction lines with
  | nil =>
    intro st r h
    rw [processLines_nil] at h
    simp at h
  | cons line rest ih =>
    intro st r h
    cases st with
    | none =>
      simp only [processLines] at h
      rcases hc : stepConfig line with e | st2
      · rw [hc] at h
        simp at h
      · rw [hc] at h
        simp only [] at h
        exact ih st2 r h
    | some v =>
      simp only [processLines] at h
      rcases hs : stepThrpt v line with e | row
      · rw [hs] at h
        simp at h
      · rw [hs] at h
        simp only [] at h
        rw [List.mem_cons] at h
        rcases h with rfl | h2
        · unfold stepThrpt at hs
          rcases h1 : searchThrpt line with _ | tok
          · rw [h1] at hs
            simp at hs
          · rw [h1] at hs
            simp only [] at hs
            rcases hf : pythonFloat tok with _ | d0
            · rw [hf] at hs
              simp at hs
            · rw [hf] at hs
              simp only [] at hs
              rcases h3 : setThroughput v d0 with _ | rec
              · rw [h3] at hs
                simp at hs
              · rw [h3] at hs
                simp only [] at hs
                cases v <;> simp [setThroughput] at h3
                next kvs =>
                  subst h3
                  exact writerow_ok_getLast _ _ d0.1 d0.2
                    (lookupKey_insertKey_self kUpdKey _ kvs) hs
        · exact ih none r h2

/-- C8: on every input the first output line is the header row, and the
header row appears exactly once in the output, before any data row (every
data row ends in a digit character while the header ends in the letter c,
so no data row can coincide with it); for the empty input the output is
the header alone. -/
theorem claim_C8 (lines : List (List Char)) :
    (programOutput lines).head? = some headerRow ∧
      (programOutput lines).count headerRow = 1 := by
  constructor
  · rfl
  · unfold programOutput
    have hz : (processLines none lines).1.count headerRow = 0 := by
      rw [List.count_eq_zero]
      intro hmem
      obtain ⟨d, hd⟩ := processLines_rows_digit lines none headerRow hmem
      have hc : headerRow.getLast? = some 'c' := rfl
      rw [hc] at hd
      injection hd with hd
      exact absurd hd.symm (digitChar_ne_c d)
    simp [List.count_cons, hz]

/-! ## Corruption of apostrophe-bearing values (C7) -/

theorem ne_of_isWordChar {c x : Char} (h : isWordChar c = true)
    (hx : isWordChar x = false) : c ≠ x := by
  intro heq
  subst heq
  rw [h] at hx
  simp at hx

theorem isWordChar_toNat {c : Char} (h : isWordChar c = true) :
    (48 ≤ c.toNat ∧ c.toNat ≤ 57) ∨ (65 ≤ c.toNat ∧ c.toNat ≤ 90) ∨
      (97 ≤ c.toNat ∧ c.toNat ≤ 122) ∨ c.toNat = 95 := by
  simp only [isWordChar, Bool.or_eq_true, Bool.and_eq_true,
    decide_eq_true_eq] at h
  tauto

theorem wordChar_not_ws {c : Char} (h : isWordChar c = true) :
    isJsonWs c = false := by
  have := isWordChar_toNat h
  simp only [isJsonWs, Bool.or_eq_false_iff, decide_eq_false_iff_not]
  omega

theorem wordChar_ge32 {c : Char} (h : isWordChar c = true) :
    ¬(c.toNat < 32) := by
  have := isWordChar_toNat h
  omega

theorem subKeysAux_no_colon :
    ∀ (fuel : Nat) (s : List Char), ':' ∉ s → subKeysAux fuel s = s := by
  intro fuel
  induction fuel with
  | zero =>
    intro s _
    cases s <;> rfl
  | succ fuel ih =>
    intro s h
    cases s with
    | nil => rfl
    | cons c cs =>
      rw [List.mem_cons] at h
      push_neg at h
      obtain ⟨h1, h2⟩ := h
      simp only [subKeysAux]
      split
      · split
        · next w r2 heq =>
          exfalso
          apply h2
          have happ := takeWord_append cs
          rw [heq] at happ
          rw [← happ]
          simp
        · rw [ih cs h2]
      · rw [ih cs h2]

theorem subKeysAux_apostLine (f : Nat) (v : List Char) (hnc : ':' ∉ v) :
    subKeysAux (f + 4) (apostValueLine v) =
      lbraceChar :: quoteChar :: 'n' :: 'a' :: 'm' :: 'e' :: quoteChar ::
        ':' :: ' ' :: apostChar :: (v ++ [apostChar, rbraceChar]) := by
  have hnc2 : ':' ∉ v ++ [apostChar, rbraceChar] := by
    intro h
    rw [List.mem_append] at h
    rcases h with h | h
    · exact hnc h
    · revert h
      decide
  have e1 : isWordChar lbraceChar = false := by decide
  have e2 : isWordChar 'n' = true := by decide
  have e3 : isWordChar 'a' = true := by decide
  have e4 : isWordChar 'm' = true := by decide
  have e5 : isWordChar 'e' = true := by decide
  have e6 : isWordChar ':' = false := by decide
  have e7 : isWordChar ' ' = false := by decide
  have e8 : isWordChar apostChar = false := by decide
  unfold apostValueLine
  simp [subKeysAux, takeWord, e1, e2, e3, e4, e5, e6, e7, e8,
    subKeysAux_no_colon f _ hnc2]

theorem subKeys_apostLine (v : List Char) (hnc : ':' ∉ v) :
    subKeys (apostValueLine v) =
      lbraceChar :: quoteChar :: 'n' :: 'a' :: 'm' :: 'e' :: quoteChar ::
        ':' :: ' ' :: apostChar :: (v ++ [apostChar, rbraceChar]) := by
  have hlen : (apostValueLine v).length = v.length + 6 + 4 := by
    simp [apostValueLine]
  unfold subKeys
  rw [hlen]
  exact subKeysAux_apostLine _ v hnc

theorem replaceQuotes_id (s : List Char) (h : ∀ c ∈ s, c ≠ apostChar) :
    replaceQuotes s = s := by
  induction s with
  | nil => rfl
  | cons c cs ih =>
    have hc := h c (List.mem_cons_self c cs)
    have ht := ih fun x hx => h x (List.mem_cons_of_mem _ hx)
    simp only [replaceQuotes, List.map_cons] at ht ⊢
    rw [if_neg hc, ht]

theorem normalizeConfig_apostLine (v : List Char) (hnc : ':' ∉ v) :
    normalizeConfig (apostValueLine v) =
      lbraceChar :: quoteChar :: 'n' :: 'a' :: 'm' :: 'e' :: quoteChar ::
        ':' :: ' ' :: quoteChar ::
        (replaceQuotes v ++ [quoteChar, rbraceChar]) := by
  have g1 : (if lbraceChar = apostChar then quoteChar else lbraceChar) = lbraceChar := by decide
  have g2 : (if quoteChar = apostChar then quoteChar else quoteChar) = quoteChar := by decide
  have g3 : (if 'n' = apostChar then quoteChar else 'n') = 'n' := by decide
  have g4 : (if 'a' = apostChar then quoteChar else 'a') = 'a' := by decide
  have g5 : (if 'm' = apostChar then quoteChar else 'm') = 'm' := by decide
  have g6 : (if 'e' = apostChar then quoteChar else 'e') = 'e' := by decide
  have g7 : (if ':' = apostChar then quoteChar else ':') = ':' := by decide
  have g8 : (if ' ' = apostChar then quoteChar else ' ') = ' ' := by decide
  have g9 : (if apostChar = apostChar then quoteChar else apostChar) = quoteChar := by decide
  have g10 : (if rbraceChar = apostChar then quoteChar else rbraceChar) = rbraceChar := by decide
  unfold normalizeConfig
  rw [subKeys_apostLine v hnc]
  simp only [replaceQuotes, List.map_cons, List.map_append,
    g1, g2, g3, g4, g5, g6, g7, g8, g9, g10]
  simp

theorem parseStringBody_clean :
    ∀ (a r : List Char), (∀ c ∈ a, isWordChar c = true) →
      parseStringBody (a ++ quoteChar :: r) = some (a, r) := by
  intro a
  induction a with
  | nil =>
    intro r _
    rw [List.nil_append, parseStringBody.eq_def]
    simp only []
    rw [if_pos trivial]
  | cons c a ih =>
    intro r h
    have hc := h c (List.mem_cons_self c a)
    have h1 : ¬(c = quoteChar) := ne_of_isWordChar hc (by decide)
    have h2 : ¬(c = backslashChar) := ne_of_isWordChar hc (by decide)
    have h3 : ¬(c.toNat < 32) := wordChar_ge32 hc
    rw [List.cons_append, parseStringBody.eq_def]
    simp only []
    rw [if_neg h1, if_neg h2, if_neg h3,
      ih r fun x hx => h x (List.mem_cons_of_mem _ hx)]
    rfl

theorem skipWs_cons_not_ws (c : Char) (r : List Char) (h : isJsonWs c = false) :
    skipWs (c :: r) = c :: r := by
  simp [skipWs, List.dropWhile_cons, h]

/-- After the quote-replacement corrupts a value, the object text has the
shape `\x7b"name": "a"b"\x7d` with `a` quote-free; the member parser then
finds neither a comma nor a closing brace after the string `"a"` and
fails, whatever the fuel. -/
theorem corrupt_members (f : Nat) (a b : List Char)
    (ha : ∀ c ∈ a, isWordChar c = true)
    (hb : ∀ c ∈ b, isWordChar c = true ∨ c = quoteChar) :
    parseMembers (Nat.succ (Nat.succ f)) []
      (quoteChar :: 'n' :: 'a' :: 'm' :: 'e' :: quoteChar :: ':' :: ' ' ::
        quoteChar :: (a ++ quoteChar :: (b ++ [quoteChar, rbraceChar]))) = none := by
  have hsb1 : parseStringBody ('n' :: 'a' :: 'm' :: 'e' :: quoteChar :: ':' :: ' ' ::
      quoteChar :: (a ++ quoteChar :: (b ++ [quoteChar, rbraceChar]))) =
      some (['n', 'a', 'm', 'e'], ':' :: ' ' ::
        quoteChar :: (a ++ quoteChar :: (b ++ [quoteChar, rbraceChar]))) :=
    parseStringBody_clean ['n', 'a', 'm', 'e'] _ (by decide)
  have hsb2 : parseStringBody (a ++ quoteChar :: (b ++ [quoteChar, rbraceChar])) =
      some (a, b ++ [quoteChar, rbraceChar]) := parseStringBody_clean a _ ha
  have hws : skipWs (' ' :: quoteChar :: (a ++ quoteChar :: (b ++ [quoteChar, rbraceChar]))) =
      quoteChar :: (a ++ quoteChar :: (b ++ [quoteChar, rbraceChar])) := by
    have w1 : isJsonWs ' ' = true := by decide
    have w2 : isJsonWs quoteChar = false := by decide
    simp [skipWs, List.dropWhile_cons, w1, w2]
  rw [parseMembers.eq_def]
  simp only []
  rw [if_pos trivial, hsb1]
  simp only []
  rw [skipWs_cons_not_ws ':' _ (by decide)]
  simp only []
  rw [if_pos trivial, parseValue.eq_def]
  simp only []
  rw [hws]
  simp only []
  rw [if_neg (by decide : ¬(quoteChar = lbraceChar)),
    if_neg (by decide : ¬(quoteChar = '[')), if_pos trivial, hsb2]
  simp only [Option.map_some']
  cases b with
  | nil =>
    rw [List.nil_append, skipWs_cons_not_ws quoteChar _ (by decide)]
    simp only []
    rw [if_neg (by decide : ¬(quoteChar = ',')),
      if_neg (by decide : ¬(quoteChar = rbraceChar))]
  | cons c0 b2 =>
    have hc0 := hb c0 (List.mem_cons_self c0 b2)
    have hnws : isJsonWs c0 = false := by
      rcases hc0 with h | h
      · exact wordChar_not_ws h
      · rw [h]
        decide
    have hne1 : ¬(c0 = ',') := by
      rcases hc0 with h | h
      · exact ne_of_isWordChar h (by decide)
      · rw [h]
        decide
    have hne2 : ¬(c0 = rbraceChar) := by
      rcases hc0 with h | h
      · exact ne_of_isWordChar h (by decide)
      · rw [h]
        decide
    rw [List.cons_append, skipWs_cons_not_ws c0 _ hnws]
    simp only []
    rw [if_neg hne1, if_neg hne2]

/-- The decode of the whole corrupted object text fails. -/
theorem corrupt_loads (a b : List Char)
    (ha : ∀ c ∈ a, isWordChar c = true)
    (hb : ∀ c ∈ b, isWordChar c = true ∨ c = quoteChar) :
    pyJsonLoads (lbraceChar :: quoteChar :: 'n' :: 'a' :: 'm' :: 'e' ::
      quoteChar :: ':' :: ' ' :: quoteChar ::
      (a ++ quoteChar :: (b ++ [quoteChar, rbraceChar]))) = none := by
  have hpv : parseValue (Nat.succ (Nat.succ (Nat.succ (a.length + b.length + 11))))
      (lbraceChar :: quoteChar :: 'n' :: 'a' :: 'm' :: 'e' ::
        quoteChar :: ':' :: ' ' :: quoteChar ::
        (a ++ quoteChar :: (b ++ [quoteChar, rbraceChar]))) = none := by
    rw [parseValue.eq_def]
    simp only []
    rw [skipWs_cons_not_ws lbraceChar _ (by decide)]
    simp only []
    rw [if_pos trivial, skipWs_cons_not_ws quoteChar _ (by decide)]
    simp only []
    rw [if_neg (by decide : ¬(quoteChar = rbraceChar)),
      corrupt_members (a.length + b.length + 11) a b ha hb]
    rfl
  have hlen : (lbraceChar :: quoteChar :: 'n' :: 'a' :: 'm' :: 'e' ::
      quoteChar :: ':' :: ' ' :: quoteChar ::
      (a ++ quoteChar :: (b ++ [quoteChar, rbraceChar]))).length + 1 =
      Nat.succ (Nat.succ (Nat.succ (a.length + b.length + 11))) := by
    simp
    omega
  unfold pyJsonLoads
  rw [hlen, hpv]

theorem exists_first_split (x : Char) (l : List Char) (h : x ∈ l) :
    ∃ s t, l = s ++ x :: t ∧ x ∉ s := by
  induction l with
  | nil => simp at h
  | cons c cs ih =>
    by_cases hc : c = x
    · subst hc
      exact ⟨[], cs, rfl, by simp⟩
    · have h2 : x ∈ cs := by
        rcases List.mem_cons.mp h with h | h
        · exact absurd h.symm hc
        · exact h
      obtain ⟨s, t, rfl, hns⟩ := ih h2
      refine ⟨c :: s, t, rfl, ?_⟩
      intro hmem
      rcases List.mem_cons.mp hmem with h | h
      · exact hc h.symm
      · exact hns h

/-- C7: a config line whose single-quoted string value contains an
embedded apostrophe (the value drawn from word characters and apostrophes,
with at least one apostrophe) is corrupted by the blanket quote
replacement: the intermediate text is malformed, the decode fails, and the
program aborts with the format error (the FormatError branch of the
claim). -/
theorem claim_C7 (v : List Char)
    (hv : ∀ c ∈ v, isWordChar c = true ∨ c = apostChar)
    (hap : apostChar ∈ v) :
    pyJsonLoads (normalizeConfig (apostValueLine v)) = none ∧
      processLines none [apostValueLine v] = ([], none, some Err.formatError) := by
  have hnc : ':' ∉ v := by
    intro hmem
    rcases hv ':' hmem with h | h
    · revert h
      decide
    · revert h
      decide
  obtain ⟨a0, b0, rfl, hna⟩ := exists_first_split apostChar v hap
  have ha0 : ∀ c ∈ a0, isWordChar c = true := by
    intro c hc
    rcases hv c (by rw [List.mem_append]; exact Or.inl hc) with h | h
    · exact h
    · subst h
      exact absurd hc hna
  have hida : replaceQuotes a0 = a0 :=
    replaceQuotes_id a0 fun c hc => ne_of_isWordChar (ha0 c hc) (by decide)
  have hrq : replaceQuotes (a0 ++ apostChar :: b0) =
      a0 ++ quoteChar :: replaceQuotes b0 := by
    simp only [replaceQuotes, List.map_append, List.map_cons] at hida ⊢
    rw [hida]
    simp
  have hb : ∀ c ∈ replaceQuotes b0, isWordChar c = true ∨ c = quoteChar := by
    intro c hc
    simp only [replaceQuotes, List.mem_map] at hc
    obtain ⟨c0, hc0, rfl⟩ := hc
    by_cases hq : c0 = apostChar
    · subst hq
      simp
    · rw [if_neg hq]
      rcases hv c0 (by
        rw [List.mem_append]
        exact Or.inr (List.mem_cons_of_mem _ hc0)) with h | h
      · exact Or.inl h
      · exact absurd h hq
  have hload : pyJsonLoads (normalizeConfig (apostValueLine (a0 ++ apostChar :: b0))) = none := by
    rw [normalizeConfig_apostLine _ hnc, hrq, List.append_assoc, List.cons_append]
    exact corrupt_loads a0 (replaceQuotes b0) ha0 hb
  refine ⟨hload, ?_⟩
  simp [processLines, stepConfig, hload]

/-- C7 witness: the config line with the value O*Brien (apostrophe written
as `*`) fails with the format error. -/
theorem claim_C7_witness :
    pyJsonLoads (normalizeConfig (apostValueLine (withApost "O*Brien"))) = none ∧
      processLines none [apostValueLine (withApost "O*Brien")] =
        ([], none, some Err.formatError) :=
  claim_C7 (withApost "O*Brien") (by decide) (by decide)

end ToCsv
